import Mathlib

/-!
Verification development for the mailviewer repository.

The façade `MailService` (src/mailservice.rs) is embedded as a pure state
machine: interior mutability through RefCell becomes explicit state passing,
and the single-slot title-changed callback becomes a trace of emitted title
strings (one list entry per synchronous callback invocation).  The message
parser, the attachment entity, the HTML sanitizer and the version constant
live in files of the repository that are not available here, so they are
modelled from the specification, as marked on each definition.
-/

namespace MailViewer

/-- Attachment entity.  Modelled from the spec: src/message/attachment.rs is not
available; fields follow §3 of the specification (declared filename, optional
mime type, fully decoded bytes). -/
structure Attachment where
  filename : String
  mime_type : Option String
  data : List Nat
deriving DecidableEq, Repr

/-- Parsed representation of one .eml file as exposed by MessageParser.
Modelled from the spec: src/message/message.rs is not available; fields follow
§3 of the specification (decoded header display strings, a normalized date
string, optional plain-text and HTML bodies, attachments in encounter order). -/
structure MessageParser where
  «from» : String
  «to» : String
  subject : String
  date : String
  body_text : Option String
  body_html : Option String
  attachments : List Attachment
deriving DecidableEq, Repr

/-- Modelled from the spec: crate::config::VERSION is not available.  Only the
fact that the fallback title is one fixed application name/version string
matters to the claims, not the concrete version number. -/
def VERSION : String := "1.0.0"

/-- Fallback application title, the Rust expression
format!("Mail Viewer v", VERSION) of MailService::get_title. -/
def appTitle : String := "Mail Viewer v" ++ VERSION

/-- Environment of one open_message call: which paths exist on disk, and what
MessageParser::parse yields at each path.  Parsing lives in a file that is not
available, so it is an oracle here; per §4.1/§7 of the specification it either
produces a parsed message or fails with a fatal ParseError. -/
structure Env where
  fsExists : String → Bool
  parse : String → Except String MessageParser

/-- State of the MailService façade (src/mailservice.rs, struct MailService).
The RefCell fields become plain fields; the single-slot callback
signal_title_changed is modelled by whether a callback is registered, with its
invocations reported as a separate event trace. -/
structure MailService where
  parser : Option MessageParser
  full_path : Option String
  show_file_name : Bool
  signal_registered : Bool
deriving DecidableEq, Repr

/-- MailService::new. -/
def MailService.new : MailService :=
  { parser := none
    full_path := none
    show_file_name := true
    signal_registered := false }

/-- MailService::from. -/
def MailService.«from» (s : MailService) : String :=
  match s.parser with
  | some p => p.«from»
  | none => ""

/-- MailService::to. -/
def MailService.«to» (s : MailService) : String :=
  match s.parser with
  | some p => p.«to»
  | none => ""

/-- MailService::subject. -/
def MailService.subject (s : MailService) : String :=
  match s.parser with
  | some p => p.subject
  | none => ""

/-- MailService::date. -/
def MailService.date (s : MailService) : String :=
  match s.parser with
  | some p => p.date
  | none => ""

/-- MailService::body_text. -/
def MailService.body_text (s : MailService) : Option String :=
  match s.parser with
  | some p => p.body_text
  | none => none

/-- MailService::body_html. -/
def MailService.body_html (s : MailService) : Option String :=
  match s.parser with
  | some p => p.body_html
  | none => none

/-- MailService::attachments. -/
def MailService.attachments (s : MailService) : List Attachment :=
  match s.parser with
  | some p => p.attachments
  | none => []

/-- MailService::get_fullpath. -/
def MailService.get_fullpath (s : MailService) : Option String :=
  s.full_path

/-- MailService::connect_title_changed: registers (or replaces) the single
title-changed callback slot. -/
def MailService.connect_title_changed (s : MailService) : MailService :=
  { s with signal_registered := true }

/-- Splitting a character list at every occurrence of a separator character
(used for the component split of std::path::Path and, later, for the
whitespace split inside an HTML tag). -/
def splitOnChar (c : Char) : List Char → List (List Char)
  | [] => [[]]
  | x :: rest =>
    if x = c then [] :: splitOnChar c rest
    else
      match splitOnChar c rest with
      | chunk :: chunks => (x :: chunk) :: chunks
      | [] => [[x]]

/-- std::path::Path::file_name on a Unix-style path string: the last normal
component, ignoring empty components and "." components; none when the path is
empty, is a root, or ends in a ".." component. -/
def file_name (p : String) : Option String :=
  let comps := (splitOnChar '/' p.data).filter (fun c => !(c == []) && !(c == ['.']))
  match comps.getLast? with
  | some c => if c = ['.', '.'] then none else some (String.mk c)
  | none => none

/-- MailService::get_title: the file's base name when the show-file-name
preference is set and the path has one, the fixed application title otherwise. -/
def MailService.get_title (s : MailService) (fullpath : String) : String :=
  if s.show_file_name then
    match file_name fullpath with
    | some filename => filename
    | none => appTitle
  else appTitle

/-- MailService::update_title: invokes the registered callback with the derived
title, but only when a callback is registered and a full path is stored.  The
returned list is the trace of callback invocations (the state is unchanged). -/
def MailService.update_title (s : MailService) : List String :=
  if s.signal_registered then
    match s.full_path with
    | some fullpath => [s.get_title fullpath]
    | none => []
  else []

/-- MailService::set_show_file_name: stores the preference, then calls
update_title.  Returns the new state and the trace of callback invocations. -/
def MailService.set_show_file_name (s : MailService) (b : Bool) :
    MailService × List String :=
  let s1 := { s with show_file_name := b }
  (s1, s1.update_title)

deriving instance DecidableEq for Except

/-- Outcome of one MailService::open_message call: the returned Result, the
state after the call, and the trace of title-changed callback invocations. -/
structure OpenResult where
  result : Except String Unit
  state : MailService
  events : List String
deriving DecidableEq, Repr

/-- MailService::open_message, in the statement order of the Rust source: the
existence check returns early with the formatted error; otherwise full_path is
replaced first, then MessageParser::parse runs (its error propagating through
the question-mark operator), then the parser is stored and update_title runs. -/
def MailService.open_message (env : Env) (s : MailService) (fullpath : String) :
    OpenResult :=
  if env.fsExists fullpath = false then
    { result := Except.error ("File not found : " ++ fullpath)
      state := s
      events := [] }
  else
    let s1 := { s with full_path := some fullpath }
    match env.parse fullpath with
    | Except.error e =>
      { result := Except.error e, state := s1, events := [] }
    | Except.ok parser =>
      let s2 := { s1 with parser := some parser }
      { result := Except.ok (), state := s2, events := s2.update_title }

/-- Parsed form of the sample message sample.eml.  Modelled from the spec (§8):
the sample's decoded headers, its pinned date string, bodies containing the
pinned substrings, and its single attachment named Deus_Gnome.png. -/
def sampleParsed : MessageParser :=
  { «from» := "John Doe <john@moon.space>"
    «to» := "Lucas <lucas@mercure.space>"
    subject := "Lorem ipsum"
    date := "2024-10-23 12:27:21"
    body_text := some "Lorem ipsum dolor sit amet, consectetur adipiscing elit"
    body_html := some "<html><body>Hello Lucas,</body></html>"
    attachments := [{ filename := "Deus_Gnome.png"
                      mime_type := some "image/png"
                      data := [1, 2, 3] }] }

/-- Environment in which sample.eml exists and parses to the sample message. -/
def sampleEnv : Env :=
  { fsExists := fun _ => true
    parse := fun p => if p = "sample.eml" then Except.ok sampleParsed
             else Except.error "ParseError" }

/-- Environment in which no path exists. -/
def emptyEnv : Env :=
  { fsExists := fun _ => false
    parse := fun _ => Except.error "ParseError" }

/-- Environment in which every path exists but nothing parses (a file whose
contents are a malformed top-level message). -/
def badParseEnv : Env :=
  { fsExists := fun _ => true
    parse := fun _ => Except.error "ParseError : malformed message" }

/-! HTML sanitizer.  Modelled from the spec: the crate html::Html used by
MailViewerWindow::load_html (src/window.rs, Html::new(html, force_css).safe())
is not available.  Following §4.2 of the specification, the sanitizer is a pure
deterministic function on strings: it lexes tag-soup HTML tolerantly, removes
script elements, removes on* event-handler attributes and javascript: URLs,
drops remote src/href resource references, and when force_css is set it
additionally strips style elements and style attributes, prepending one fixed
baseline style element. -/

/-- Lexer token: a run of character data, or the inside of one angle-bracket
tag. -/
inductive Tok where
  | text (s : List Char)
  | tag (s : List Char)
deriving DecidableEq, Repr

/-- One-pass tolerant tag-soup lexer.  The Bool flag says whether the scan is
inside a tag; buf is the reversed current buffer.  An unterminated tag at end
of input is recovered as character data (its opening angle bracket dropped). -/
def lexAux : List Char → Bool → List Char → List Tok
  | [], false, buf => if buf = [] then [] else [Tok.text buf.reverse]
  | [], true, buf => [Tok.text buf.reverse]
  | c :: rest, false, buf =>
    if c = '<' then
      if buf = [] then lexAux rest true []
      else Tok.text buf.reverse :: lexAux rest true []
    else lexAux rest false (c :: buf)
  | c :: rest, true, buf =>
    if c = '>' then Tok.tag buf.reverse :: lexAux rest false []
    else lexAux rest true (c :: buf)

/-- Lexing a character list from the initial state. -/
def lexChars (l : List Char) : List Tok := lexAux l false []

/-- Serialization of a token list back to characters. -/
def serializeToks : List Tok → List Char
  | [] => []
  | Tok.text s :: rest => s ++ serializeToks rest
  | Tok.tag t :: rest => '<' :: (t ++ '>' :: serializeToks rest)

/-- Joining chunks with a separator character (inverse of splitOnChar on
canonical chunk lists). -/
def joinChar (c : Char) : List (List Char) → List Char
  | [] => []
  | [a] => a
  | a :: rest => a ++ c :: joinChar c rest

/-- Nonempty whitespace-separated chunks of a tag's inside: the first chunk is
the element name, the rest are attributes. -/
def tagChunks (t : List Char) : List (List Char) :=
  (splitOnChar ' ' t).filter (fun c => !(c == []))

/-- Lower-cased element name of a tag. -/
def tagName (t : List Char) : List Char :=
  match tagChunks t with
  | [] => []
  | n :: _ => n.map Char.toLower

/-- Lower-cased attribute name (the part of a chunk before the first equals
sign). -/
def attrName (chunk : List Char) : List Char :=
  (chunk.takeWhile (fun c => !(c == '='))).map Char.toLower

/-- Attribute value (the part of a chunk after the first equals sign). -/
def attrValue (chunk : List Char) : List Char :=
  (chunk.dropWhile (fun c => !(c == '='))).drop 1

/-- Dropping one leading double quote from an attribute value. -/
def stripQuote : List Char → List Char
  | [] => []
  | c :: rest => if c = '"' then rest else c :: rest

/-- Attribute filter of the sanitizer: drops on* event handlers, javascript:
URLs, remote http(s) src/href references, and, when force_css is set, style
attributes. -/
def keepAttr (f : Bool) (chunk : List Char) : Bool :=
  let n := attrName chunk
  let v := (stripQuote (attrValue chunk)).map Char.toLower
  !(("on".data.isPrefixOf n) ||
    ("javascript:".data.isPrefixOf v) ||
    (((n == "src".data) || (n == "href".data)) &&
      (("http://".data.isPrefixOf v) || ("https://".data.isPrefixOf v))) ||
    (f && (n == "style".data)))

/-- Attribute cleaning of one tag: the element name is kept, attribute chunks
failing keepAttr are removed, and the inside is re-joined canonically with
single spaces.  A tag with no chunks is left unchanged. -/
def cleanTagInside (f : Bool) (t : List Char) : List Char :=
  match tagChunks t with
  | [] => t
  | name :: attrs => joinChar ' ' (name :: attrs.filter (keepAttr f))

/-- Token cleaning: character data loses stray opening angle brackets (making
tolerantly recovered malformed input well formed), tags get their attributes
filtered. -/
def cleanTok (f : Bool) : Tok → Tok
  | Tok.text s => Tok.text (s.filter (fun c => !(c == '<')))
  | Tok.tag t => Tok.tag (cleanTagInside f t)

/-- Element dropper: removes every element with the given lower-cased name
together with its whole content up to the matching closing tag (or the end of
input when unclosed).  The Bool flag says whether the scan is currently inside
such an element. -/
def dropElemAux (nm : List Char) : List Tok → Bool → List Tok
  | [], _ => []
  | Tok.text s :: rest, false => Tok.text s :: dropElemAux nm rest false
  | Tok.text _ :: rest, true => dropElemAux nm rest true
  | Tok.tag t :: rest, false =>
    if tagName t = nm then dropElemAux nm rest true
    else Tok.tag t :: dropElemAux nm rest false
  | Tok.tag t :: rest, true =>
    if tagName t = '/' :: nm then dropElemAux nm rest false
    else dropElemAux nm rest true

/-- Dropping every element with the given name, from the outside state. -/
def dropElement (nm : List Char) (l : List Tok) : List Tok := dropElemAux nm l false

/-- Normalization: adjacent character-data tokens are merged and empty ones
removed, so that serialization followed by re-lexing is the identity. -/
def mergeTexts : List Tok → List Tok
  | [] => []
  | Tok.tag t :: rest => Tok.tag t :: mergeTexts rest
  | Tok.text s :: rest =>
    match mergeTexts rest with
    | Tok.text b :: r => if s ++ b = [] then r else Tok.text (s ++ b) :: r
    | r => if s = [] then r else Tok.text s :: r

/-- Baseline style sheet used by the forced rendering mode. -/
def baselineCss : List Char :=
  "body \x7b margin: 8px; font-family: sans-serif; color: black; \x7d".data

/-- Baseline style element prepended in forced rendering mode. -/
def baselineToks : List Tok :=
  [Tok.tag "style".data, Tok.text baselineCss, Tok.tag "/style".data]

/-- Whole sanitizer pipeline on token lists: drop script elements, clean every
token, optionally replace all styling by the baseline style element, then
normalize. -/
def transform (f : Bool) (ts : List Tok) : List Tok :=
  let a := dropElement "script".data ts
  let b := a.map (cleanTok f)
  let c := if f then baselineToks ++ dropElement "style".data b else b
  mergeTexts c

/-- Html::new(html, force_css).safe() of the repository, modelled from the
spec: the sanitized, safe-to-render HTML string. -/
def sanitize (html : String) (force_css : Bool) : String :=
  String.mk (serializeToks (transform force_css (lexChars html.data)))

/-- Goodness of one token for re-lexing: character data holds no opening angle
bracket, a tag's inside holds no closing angle bracket. -/
def tokGood : Tok → Prop
  | Tok.text s => '<' ∉ s
  | Tok.tag t => '>' ∉ t

/-- Token lists whose head is not character data. -/
def headNotText : List Tok → Prop
  | Tok.text _ :: _ => False
  | _ => True

/-- Canonical token lists: every token is good for re-lexing, character data is
nonempty, and no two character-data tokens are adjacent.  Serialization
followed by lexing is the identity on canonical lists. -/
inductive Canon : List Tok → Prop where
  | nil : Canon []
  | tag {t rest} : '>' ∉ t → Canon rest → Canon (Tok.tag t :: rest)
  | text {s rest} : s ≠ [] → '<' ∉ s → headNotText rest → Canon rest →
      Canon (Tok.text s :: rest)

/-- Token lists containing no opening tag of the given element name. -/
def NoOpen (nm : List Char) (l : List Tok) : Prop :=
  ∀ t, Tok.tag t ∈ l → tagName t ≠ nm

/-- Token lists on which cleaning is the identity. -/
def AllClean (f : Bool) (l : List Tok) : Prop :=
  ∀ x ∈ l, cleanTok f x = x

/-- Token lists of good tokens. -/
def AllGood (l : List Tok) : Prop :=
  ∀ x ∈ l, tokGood x

end MailViewer

namespace MailViewer

theorem splitOnChar_ne_nil (c : Char) (l : List Char) : splitOnChar c l ≠ [] := by
  induction l with
  | nil => simp [splitOnChar]
  | cons x rest ih =>
    simp only [splitOnChar]
    by_cases h : x = c
    · simp [h]
    · simp only [h, if_false]
      cases hs : splitOnChar c rest with
      | nil => simp
      | cons a b => simp

theorem splitOnChar_no_sep_mem (c : Char) (l : List Char) :
    ∀ chunk ∈ splitOnChar c l, c ∉ chunk := by
  induction l with
  | nil =>
    intro chunk hc
    simp [splitOnChar] at hc
    simp [hc]
  | cons x rest ih =>
    intro chunk hc
    simp only [splitOnChar] at hc
    by_cases h : x = c
    · simp only [h, if_true] at hc
      rcases List.mem_cons.mp hc with h1 | h1
      · simp [h1]
      · exact ih chunk h1
    · simp only [h, if_false] at hc
      cases hs : splitOnChar c rest with
      | nil => exact absurd hs (splitOnChar_ne_nil c rest)
      | cons a b =>
        rw [hs] at hc
        rcases List.mem_cons.mp hc with h1 | h1
        · subst h1
          intro hmem
          rcases List.mem_cons.mp hmem with h2 | h2
          · exact h h2.symm
          · exact ih a (hs ▸ List.mem_cons_self a b) h2
        · exact ih chunk (hs ▸ List.mem_cons_of_mem a h1)

theorem splitOnChar_mem_subset (c : Char) (l : List Char) :
    ∀ chunk ∈ splitOnChar c l, ∀ x ∈ chunk, x ∈ l := by
  induction l with
  | nil =>
    intro chunk hc
    simp [splitOnChar] at hc
    simp [hc]
  | cons y rest ih =>
    intro chunk hc x hx
    simp only [splitOnChar] at hc
    by_cases h : y = c
    · simp only [h, if_true] at hc
      rcases List.mem_cons.mp hc with h1 | h1
      · subst h1; simp at hx
      · exact List.mem_cons_of_mem y (ih chunk h1 x hx)
    · simp only [h, if_false] at hc
      cases hs : splitOnChar c rest with
      | nil => exact absurd hs (splitOnChar_ne_nil c rest)
      | cons a b =>
        rw [hs] at hc
        rcases List.mem_cons.mp hc with h1 | h1
        · subst h1
          rcases List.mem_cons.mp hx with h2 | h2
          · exact h2 ▸ List.mem_cons_self y rest
          · exact List.mem_cons_of_mem y (ih a (hs ▸ List.mem_cons_self a b) x h2)
        · exact List.mem_cons_of_mem y (ih chunk (hs ▸ List.mem_cons_of_mem a h1) x hx)

theorem splitOnChar_of_no_sep (c : Char) (a : List Char) (h : c ∉ a) :
    splitOnChar c a = [a] := by
  induction a with
  | nil => simp [splitOnChar]
  | cons x rest ih =>
    have hx : ¬(x = c) := fun he => h (he ▸ List.mem_cons_self x rest)
    have hr : c ∉ rest := fun hm => h (List.mem_cons_of_mem x hm)
    simp only [splitOnChar, hx, if_false, ih hr]

theorem splitOnChar_append_sep (c : Char) (a l : List Char) (h : c ∉ a) :
    splitOnChar c (a ++ c :: l) = a :: splitOnChar c l := by
  induction a with
  | nil => simp [splitOnChar]
  | cons x rest ih =>
    have hx : ¬(x = c) := fun he => h (he ▸ List.mem_cons_self x rest)
    have hr : c ∉ rest := fun hm => h (List.mem_cons_of_mem x hm)
    simp only [List.cons_append, splitOnChar, hx, if_false]
    rw [show rest.append (c :: l) = rest ++ c :: l from rfl, ih hr]

theorem filter_splitOnChar_joinChar (c : Char) (cs : List (List Char))
    (h : ∀ a ∈ cs, a ≠ [] ∧ c ∉ a) :
    (splitOnChar c (joinChar c cs)).filter (fun x => !(x == [])) = cs := by
  induction cs with
  | nil => simp [joinChar, splitOnChar]
  | cons a rest ih =>
    rcases h a (List.mem_cons_self a rest) with ⟨hne, hsep⟩
    cases rest with
    | nil =>
      simp only [joinChar, splitOnChar_of_no_sep c a hsep]
      simp [List.filter_cons, hne]
    | cons b rest2 =>
      have hrest : ∀ x ∈ b :: rest2, x ≠ [] ∧ c ∉ x :=
        fun x hx => h x (List.mem_cons_of_mem a hx)
      simp only [joinChar]
      rw [splitOnChar_append_sep c a _ hsep, List.filter_cons]
      simp [hne]
      simpa using ih hrest

theorem mem_joinChar (c : Char) (cs : List (List Char)) (x : Char)
    (h : x ∈ joinChar c cs) : x = c ∨ ∃ a ∈ cs, x ∈ a := by
  induction cs with
  | nil => simp [joinChar] at h
  | cons a rest ih =>
    cases rest with
    | nil =>
      simp only [joinChar] at h
      exact Or.inr ⟨a, List.mem_cons_self a [], h⟩
    | cons b rest2 =>
      simp only [joinChar] at h
      rcases List.mem_append.mp h with h1 | h1
      · exact Or.inr ⟨a, List.mem_cons_self a _, h1⟩
      · rcases List.mem_cons.mp h1 with h2 | h2
        · exact Or.inl h2
        · rcases ih h2 with h3 | ⟨d, hd, hx⟩
          · exact Or.inl h3
          · exact Or.inr ⟨d, List.mem_cons_of_mem a hd, hx⟩

end MailViewer

namespace MailViewer

theorem tagChunks_mem_ne_nil {t chunk : List Char} (h : chunk ∈ tagChunks t) :
    chunk ≠ [] := by
  simp only [tagChunks, List.mem_filter] at h
  simpa using h.2

theorem tagChunks_mem_no_space {t chunk : List Char} (h : chunk ∈ tagChunks t) :
    ' ' ∉ chunk := by
  simp only [tagChunks, List.mem_filter] at h
  exact splitOnChar_no_sep_mem ' ' t chunk h.1

theorem tagChunks_mem_subset {t chunk : List Char} (h : chunk ∈ tagChunks t) :
    ∀ x ∈ chunk, x ∈ t := by
  simp only [tagChunks, List.mem_filter] at h
  exact splitOnChar_mem_subset ' ' t chunk h.1

theorem tagChunks_cleanTagInside (f : Bool) (t : List Char) (n : List Char)
    (ats : List (List Char)) (h : tagChunks t = n :: ats) :
    tagChunks (cleanTagInside f t) = n :: ats.filter (keepAttr f) := by
  have hmem : ∀ a ∈ n :: ats.filter (keepAttr f), a ≠ [] ∧ ' ' ∉ a := by
    intro a ha
    have hat : a ∈ tagChunks t := by
      rw [h]
      rcases List.mem_cons.mp ha with h1 | h1
      · exact h1 ▸ List.mem_cons_self n ats
      · exact List.mem_cons_of_mem n (List.mem_of_mem_filter h1)
    exact ⟨tagChunks_mem_ne_nil hat, tagChunks_mem_no_space hat⟩
  simp only [cleanTagInside, h]
  exact filter_splitOnChar_joinChar ' ' _ hmem

theorem cleanTagInside_idem (f : Bool) (t : List Char) :
    cleanTagInside f (cleanTagInside f t) = cleanTagInside f t := by
  cases h : tagChunks t with
  | nil =>
    have h1 : cleanTagInside f t = t := by simp [cleanTagInside, h]
    simp [h1]
  | cons n ats =>
    have h2 := tagChunks_cleanTagInside f t n ats h
    conv_lhs => rw [cleanTagInside]
    rw [h2]
    conv_rhs => rw [cleanTagInside]
    rw [h]
    simp [List.filter_filter]

theorem tagName_cleanTagInside (f : Bool) (t : List Char) :
    tagName (cleanTagInside f t) = tagName t := by
  cases h : tagChunks t with
  | nil =>
    have h1 : cleanTagInside f t = t := by simp [cleanTagInside, h]
    rw [h1]
  | cons n ats =>
    rw [tagName, tagChunks_cleanTagInside f t n ats h, tagName, h]

theorem noGt_cleanTagInside (f : Bool) (t : List Char) (h : '>' ∉ t) :
    '>' ∉ cleanTagInside f t := by
  cases hc : tagChunks t with
  | nil =>
    have h1 : cleanTagInside f t = t := by simp [cleanTagInside, hc]
    rw [h1]; exact h
  | cons n ats =>
    simp only [cleanTagInside, hc]
    intro hmem
    rcases mem_joinChar ' ' _ '>' hmem with h1 | ⟨a, ha, hx⟩
    · exact absurd h1 (by decide)
    · have hat : a ∈ tagChunks t := by
        rw [hc]
        rcases List.mem_cons.mp ha with h2 | h2
        · exact h2 ▸ List.mem_cons_self n ats
        · exact List.mem_cons_of_mem n (List.mem_of_mem_filter h2)
      exact h (tagChunks_mem_subset hat '>' hx)

theorem cleanTok_idem (f : Bool) (x : Tok) :
    cleanTok f (cleanTok f x) = cleanTok f x := by
  cases x with
  | text s => simp [cleanTok, List.filter_filter]
  | tag t => simp [cleanTok, cleanTagInside_idem]

end MailViewer

namespace MailViewer

theorem mem_dropElemAux (nm : List Char) (l : List Tok) (b : Bool) :
    ∀ x ∈ dropElemAux nm l b, x ∈ l := by
  induction l generalizing b with
  | nil => intro x hx; simp [dropElemAux] at hx
  | cons y rest ih =>
    intro x hx
    cases y with
    | text s =>
      cases b with
      | false =>
        simp only [dropElemAux] at hx
        rcases List.mem_cons.mp hx with h1 | h1
        · exact h1 ▸ List.mem_cons_self _ _
        · exact List.mem_cons_of_mem _ (ih false x h1)
      | true =>
        simp only [dropElemAux] at hx
        exact List.mem_cons_of_mem _ (ih true x hx)
    | tag t =>
      cases b with
      | false =>
        simp only [dropElemAux] at hx
        by_cases ht : tagName t = nm
        · rw [if_pos ht] at hx
          exact List.mem_cons_of_mem _ (ih true x hx)
        · rw [if_neg ht] at hx
          rcases List.mem_cons.mp hx with h1 | h1
          · exact h1 ▸ List.mem_cons_self _ _
          · exact List.mem_cons_of_mem _ (ih false x h1)
      | true =>
        simp only [dropElemAux] at hx
        by_cases ht : tagName t = '/' :: nm
        · rw [if_pos ht] at hx
          exact List.mem_cons_of_mem _ (ih false x hx)
        · rw [if_neg ht] at hx
          exact List.mem_cons_of_mem _ (ih true x hx)

theorem noOpen_dropElemAux (nm : List Char) (l : List Tok) (b : Bool) :
    ∀ t, Tok.tag t ∈ dropElemAux nm l b → tagName t ≠ nm := by
  induction l generalizing b with
  | nil => intro t ht; simp [dropElemAux] at ht
  | cons y rest ih =>
    intro t ht
    cases y with
    | text s =>
      cases b with
      | false =>
        simp only [dropElemAux] at ht
        rcases List.mem_cons.mp ht with h1 | h1
        · exact absurd h1 (by simp)
        · exact ih false t h1
      | true =>
        simp only [dropElemAux] at ht
        exact ih true t ht
    | tag t2 =>
      cases b with
      | false =>
        simp only [dropElemAux] at ht
        by_cases h2 : tagName t2 = nm
        · rw [if_pos h2] at ht
          exact ih true t ht
        · rw [if_neg h2] at ht
          rcases List.mem_cons.mp ht with h1 | h1
          · cases Tok.tag.inj h1
            exact h2
          · exact ih false t h1
      | true =>
        simp only [dropElemAux] at ht
        by_cases h2 : tagName t2 = '/' :: nm
        · rw [if_pos h2] at ht
          exact ih false t ht
        · rw [if_neg h2] at ht
          exact ih true t ht

theorem dropElemAux_eq_self (nm : List Char) (l : List Tok) (h : NoOpen nm l) :
    dropElemAux nm l false = l := by
  induction l with
  | nil => simp [dropElemAux]
  | cons y rest ih =>
    have hrest : NoOpen nm rest := fun t ht => h t (List.mem_cons_of_mem y ht)
    cases y with
    | text s => simp only [dropElemAux, ih hrest]
    | tag t =>
      have hne : tagName t ≠ nm := h t (List.mem_cons_self _ _)
      simp only [dropElemAux, if_neg hne, ih hrest]

theorem tag_mem_mergeTexts (l : List Tok) :
    ∀ t, Tok.tag t ∈ mergeTexts l → Tok.tag t ∈ l := by
  induction l with
  | nil => intro t ht; simp [mergeTexts] at ht
  | cons y rest ih =>
    intro t ht
    cases y with
    | tag t2 =>
      simp only [mergeTexts] at ht
      rcases List.mem_cons.mp ht with h1 | h1
      · exact h1 ▸ List.mem_cons_self _ _
      · exact List.mem_cons_of_mem _ (ih t h1)
    | text s =>
      refine List.mem_cons_of_mem _ (ih t ?_)
      cases hm : mergeTexts rest with
      | nil =>
        simp only [mergeTexts, hm] at ht
        split at ht <;> simp_all
      | cons hd r =>
        cases hd with
        | text b =>
          simp only [mergeTexts, hm] at ht
          split at ht
          · exact List.mem_cons_of_mem _ ht
          · rcases List.mem_cons.mp ht with h1 | h1
            · exact absurd h1 (by simp)
            · exact List.mem_cons_of_mem _ h1
        | tag t2 =>
          simp only [mergeTexts, hm] at ht
          split at ht
          · exact ht
          · rcases List.mem_cons.mp ht with h1 | h1
            · exact absurd h1 (by simp)
            · exact h1

end MailViewer

namespace MailViewer

theorem mergeTexts_canon (l : List Tok) (h : AllGood l) : Canon (mergeTexts l) := by
  induction l with
  | nil => exact Canon.nil
  | cons x rest ih =>
    have hx := h x (List.mem_cons_self x rest)
    have hrest : AllGood rest := fun y hy => h y (List.mem_cons_of_mem x hy)
    have ihc := ih hrest
    cases x with
    | tag t =>
      simp only [mergeTexts]
      exact Canon.tag hx ihc
    | text s =>
      have hlt : '<' ∉ s := hx
      cases hm : mergeTexts rest with
      | nil =>
        simp only [mergeTexts, hm]
        split
        · exact Canon.nil
        · next hne => exact Canon.text hne hlt trivial Canon.nil
      | cons hd r =>
        rw [hm] at ihc
        cases hd with
        | text b =>
          cases ihc with
          | text hbne hblt hhead hc =>
            simp only [mergeTexts, hm]
            have habne : s ++ b ≠ [] := by
              intro he
              exact hbne (List.append_eq_nil.mp he).2
            rw [if_neg habne]
            refine Canon.text habne ?_ hhead hc
            intro hmem
            rcases List.mem_append.mp hmem with h1 | h1
            · exact hlt h1
            · exact hblt h1
        | tag t2 =>
          cases ihc with
          | tag hgt hc =>
            simp only [mergeTexts, hm]
            split
            · exact Canon.tag hgt hc
            · next hne => exact Canon.text hne hlt trivial (Canon.tag hgt hc)

theorem mergeTexts_eq_self (l : List Tok) (h : Canon l) : mergeTexts l = l := by
  induction h with
  | nil => rfl
  | tag hgt hc ih =>
    simp only [mergeTexts, ih]
  | text hne hlt hhead hc ih =>
    rename_i s rest
    simp only [mergeTexts, ih]
    cases rest with
    | nil => simp [hne]
    | cons hd r =>
      cases hd with
      | text b => exact absurd hhead (by simp [headNotText])
      | tag t2 => simp [hne]

theorem allClean_mergeTexts (f : Bool) (l : List Tok) (h : AllClean f l) :
    AllClean f (mergeTexts l) := by
  induction l with
  | nil => intro y hy; simp [mergeTexts] at hy
  | cons x rest ih =>
    have hx := h x (List.mem_cons_self x rest)
    have hrest : AllClean f rest := fun y hy => h y (List.mem_cons_of_mem x hy)
    have ihc := ih hrest
    intro y hy
    cases x with
    | tag t =>
      simp only [mergeTexts] at hy
      rcases List.mem_cons.mp hy with h1 | h1
      · exact h1 ▸ hx
      · exact ihc y h1
    | text s =>
      have hs : s.filter (fun c => !(c == '<')) = s := by
        have := hx
        simp only [cleanTok, Tok.text.injEq] at this
        exact this
      cases hm : mergeTexts rest with
      | nil =>
        simp only [mergeTexts, hm] at hy
        split at hy
        · simp at hy
        · rcases List.mem_cons.mp hy with h1 | h1
          · subst h1
            simp [cleanTok, hs]
          · simp at h1
      | cons hd r =>
        rw [hm] at ihc
        cases hd with
        | text b =>
          have hb : b.filter (fun c => !(c == '<')) = b := by
            have := ihc (Tok.text b) (List.mem_cons_self _ _)
            simp only [cleanTok, Tok.text.injEq] at this
            exact this
          simp only [mergeTexts, hm] at hy
          split at hy
          · exact ihc y (List.mem_cons_of_mem _ hy)
          · rcases List.mem_cons.mp hy with h1 | h1
            · subst h1
              simp [cleanTok, List.filter_append, hs, hb]
            · exact ihc y (List.mem_cons_of_mem _ h1)
        | tag t2 =>
          simp only [mergeTexts, hm] at hy
          split at hy
          · exact ihc y hy
          · rcases List.mem_cons.mp hy with h1 | h1
            · subst h1
              simp [cleanTok, hs]
            · exact ihc y h1

end MailViewer

namespace MailViewer

theorem lexAux_text_run (s : List Char) (h : '<' ∉ s) :
    ∀ r buf, lexAux (s ++ r) false buf = lexAux r false (s.reverse ++ buf) := by
  induction s with
  | nil => intro r buf; simp
  | cons x s2 ih =>
    intro r buf
    have hx : ¬(x = '<') := fun he => h (he ▸ List.mem_cons_self x s2)
    have hs : '<' ∉ s2 := fun hm => h (List.mem_cons_of_mem x hm)
    simp only [List.cons_append, lexAux, hx, if_false]
    rw [show s2.append r = s2 ++ r from rfl, ih hs r (x :: buf),
      List.reverse_cons, List.append_assoc, List.singleton_append]

theorem lexAux_tag_run (t : List Char) (h : '>' ∉ t) :
    ∀ r buf, lexAux (t ++ '>' :: r) true buf =
      Tok.tag (buf.reverse ++ t) :: lexAux r false [] := by
  induction t with
  | nil => intro r buf; simp [lexAux]
  | cons x t2 ih =>
    intro r buf
    have hx : ¬(x = '>') := fun he => h (he ▸ List.mem_cons_self x t2)
    have ht : '>' ∉ t2 := fun hm => h (List.mem_cons_of_mem x hm)
    simp only [List.cons_append, lexAux, hx, if_false]
    rw [show t2.append ('>' :: r) = t2 ++ '>' :: r from rfl, ih ht r (x :: buf),
      List.reverse_cons, List.append_assoc, List.singleton_append]

theorem lexAux_serialize (ts : List Tok) (h : Canon ts) :
    ∀ buf, (headNotText ts ∨ buf = []) →
      lexAux (serializeToks ts) false buf =
        (if buf = [] then [] else [Tok.text buf.reverse]) ++ ts := by
  induction h with
  | nil =>
    intro buf _
    cases hb : buf with
    | nil => simp [serializeToks, lexAux]
    | cons c b2 => simp [serializeToks, lexAux]
  | tag hgt hc ih =>
    rename_i t rest
    intro buf _
    have hrun := lexAux_tag_run t hgt (serializeToks rest) []
    have hrest := ih [] (Or.inr rfl)
    by_cases hb : buf = [] <;>
      simp [serializeToks, lexAux, hb, hrun, hrest]
  | text hne hlt hhead hc ih =>
    rename_i s rest
    intro buf hb
    have hbuf : buf = [] := by
      rcases hb with h1 | h1
      · exact absurd h1 (by simp [headNotText])
      · exact h1
    subst hbuf
    simp only [serializeToks]
    rw [lexAux_text_run s hlt (serializeToks rest) []]
    rw [List.append_nil]
    rw [ih s.reverse (Or.inl hhead)]
    have hrne : s.reverse ≠ [] := by simpa using hne
    simp [hrne]

theorem lex_serialize_roundtrip (ts : List Tok) (h : Canon ts) :
    lexChars (serializeToks ts) = ts := by
  have := lexAux_serialize ts h [] (Or.inr rfl)
  simpa [lexChars] using this

theorem lexAux_tags_good (l : List Char) :
    ∀ flag buf, (flag = true → '>' ∉ buf) →
      ∀ t, Tok.tag t ∈ lexAux l flag buf → '>' ∉ t := by
  induction l with
  | nil =>
    intro flag buf hb t ht
    cases flag with
    | false =>
      simp only [lexAux] at ht
      split at ht <;> simp at ht
    | true =>
      simp only [lexAux] at ht
      simp at ht
  | cons c rest ih =>
    intro flag buf hb t ht
    cases flag with
    | false =>
      simp only [lexAux] at ht
      by_cases hc : c = '<'
      · rw [if_pos hc] at ht
        split at ht
        · exact ih true [] (fun _ => List.not_mem_nil '>') t ht
        · rcases List.mem_cons.mp ht with h1 | h1
          · exact absurd h1 (by simp)
          · exact ih true [] (fun _ => List.not_mem_nil '>') t h1
      · rw [if_neg hc] at ht
        exact ih false (c :: buf) (by simp) t ht
    | true =>
      simp only [lexAux] at ht
      by_cases hc : c = '>'
      · rw [if_pos hc] at ht
        rcases List.mem_cons.mp ht with h1 | h1
        · cases Tok.tag.inj h1
          intro hmem
          exact (hb rfl) (List.mem_reverse.mp hmem)
        · exact ih false [] (by simp) t h1
      · rw [if_neg hc] at ht
        refine ih true (c :: buf) ?_ t ht
        intro _
        intro hmem
        rcases List.mem_cons.mp hmem with h2 | h2
        · exact hc h2.symm
        · exact (hb rfl) h2

end MailViewer

namespace MailViewer

theorem tag_mem_map_clean (f : Bool) (l : List Tok) (t : List Char)
    (h : Tok.tag t ∈ l.map (cleanTok f)) :
    ∃ t0, Tok.tag t0 ∈ l ∧ t = cleanTagInside f t0 := by
  rcases List.mem_map.mp h with ⟨y, hy, hc⟩
  cases y with
  | text s => simp [cleanTok] at hc
  | tag t0 =>
    simp only [cleanTok] at hc
    exact ⟨t0, hy, (Tok.tag.inj hc).symm⟩

theorem noOpen_map_clean (f : Bool) (nm : List Char) (l : List Tok)
    (h : NoOpen nm l) : NoOpen nm (l.map (cleanTok f)) := by
  intro t ht
  rcases tag_mem_map_clean f l t ht with ⟨t0, h0, rfl⟩
  rw [tagName_cleanTagInside]
  exact h t0 h0

theorem allClean_map_clean (f : Bool) (l : List Tok) :
    AllClean f (l.map (cleanTok f)) := by
  intro x hx
  rcases List.mem_map.mp hx with ⟨y, _, rfl⟩
  exact cleanTok_idem f y

theorem map_clean_eq_self (f : Bool) (l : List Tok) (h : AllClean f l) :
    l.map (cleanTok f) = l := by
  induction l with
  | nil => rfl
  | cons x rest ih =>
    have hx := h x (List.mem_cons_self x rest)
    have hrest : AllClean f rest := fun y hy => h y (List.mem_cons_of_mem x hy)
    simp [hx, ih hrest]

theorem allGood_map_clean (f : Bool) (l : List Tok)
    (h : ∀ t, Tok.tag t ∈ l → '>' ∉ t) : AllGood (l.map (cleanTok f)) := by
  intro x hx
  rcases List.mem_map.mp hx with ⟨y, hy, rfl⟩
  cases y with
  | text s =>
    simp only [cleanTok, tokGood]
    intro hmem
    have := List.mem_filter.mp hmem
    simp at this
  | tag t =>
    simp only [cleanTok, tokGood]
    exact noGt_cleanTagInside f t (h t hy)

theorem noOpen_mergeTexts (nm : List Char) (l : List Tok) (h : NoOpen nm l) :
    NoOpen nm (mergeTexts l) :=
  fun t ht => h t (tag_mem_mergeTexts l t ht)

theorem allClean_baselineToks (f : Bool) : AllClean f baselineToks := by
  intro x hx
  simp only [baselineToks, List.mem_cons, List.not_mem_nil, or_false] at hx
  rcases hx with rfl | rfl | rfl <;> cases f <;> decide

theorem allGood_baselineToks : AllGood baselineToks := by
  intro x hx
  simp only [baselineToks, List.mem_cons, List.not_mem_nil, or_false] at hx
  rcases hx with rfl | rfl | rfl <;> · simp only [tokGood]; decide

theorem noOpen_script_baselineToks : NoOpen "script".data baselineToks := by
  intro t ht
  simp only [baselineToks, List.mem_cons, List.not_mem_nil, or_false] at ht
  rcases ht with h1 | h1 | h1 <;> simp_all <;> decide

end MailViewer

namespace MailViewer

theorem dropElement_eq_self (nm : List Char) (l : List Tok) (h : NoOpen nm l) :
    dropElement nm l = l :=
  dropElemAux_eq_self nm l h

theorem mergeTexts_baseline_append (D : List Tok) :
    mergeTexts (baselineToks ++ D) = baselineToks ++ mergeTexts D := by
  have hcss : baselineCss ≠ [] := by decide
  show mergeTexts (Tok.tag "style".data :: Tok.text baselineCss ::
    Tok.tag "/style".data :: D) = _
  simp only [mergeTexts]
  simp [hcss, baselineToks]

theorem dropStyle_baseline_append (Y : List Tok)
    (hY : NoOpen "style".data Y) :
    dropElement "style".data (baselineToks ++ Y) = Y := by
  have h1 : tagName "style".data = "style".data := by decide
  have h2 : tagName "/style".data = '/' :: "style".data := by decide
  show dropElemAux "style".data (Tok.tag "style".data :: Tok.text baselineCss ::
    Tok.tag "/style".data :: Y) false = Y
  simp only [dropElemAux, h1, h2, eq_self_iff_true, if_true]
  exact dropElemAux_eq_self _ _ hY

theorem canon_transform (f : Bool) (ts : List Tok)
    (h : ∀ t, Tok.tag t ∈ ts → '>' ∉ t) : Canon (transform f ts) := by
  have ha : ∀ t, Tok.tag t ∈ dropElement "script".data ts → '>' ∉ t :=
    fun t ht => h t (mem_dropElemAux _ _ _ _ ht)
  have hb : AllGood ((dropElement "script".data ts).map (cleanTok f)) :=
    allGood_map_clean f _ ha
  show Canon (mergeTexts (if f then
    baselineToks ++ dropElement "style".data
      ((dropElement "script".data ts).map (cleanTok f))
    else (dropElement "script".data ts).map (cleanTok f)))
  apply mergeTexts_canon
  cases f with
  | false => simpa using hb
  | true =>
    intro x hx
    simp only [if_true] at hx
    rcases List.mem_append.mp hx with h1 | h1
    · exact allGood_baselineToks x h1
    · exact hb x (mem_dropElemAux _ _ _ _ h1)

theorem transform_fix (f : Bool) (us : List Tok) (hc : Canon us)
    (hns : NoOpen "script".data us) (hcl : AllClean f us)
    (hstyle : f = true → ∃ Y, NoOpen "style".data Y ∧ us = baselineToks ++ Y) :
    transform f us = us := by
  show mergeTexts (if f then
    baselineToks ++ dropElement "style".data
      ((dropElement "script".data us).map (cleanTok f))
    else (dropElement "script".data us).map (cleanTok f)) = us
  rw [dropElement_eq_self _ _ hns, map_clean_eq_self f _ hcl]
  cases f with
  | false =>
    simp only [Bool.false_eq_true, if_false]
    exact mergeTexts_eq_self _ hc
  | true =>
    simp only [if_true]
    rcases hstyle rfl with ⟨Y, hY, hus⟩
    rw [hus, dropStyle_baseline_append Y hY, ← hus]
    exact mergeTexts_eq_self _ hc

theorem transform_idem (f : Bool) (ts : List Tok)
    (h : ∀ t, Tok.tag t ∈ ts → '>' ∉ t) :
    transform f (transform f ts) = transform f ts := by
  have hbNoScript : NoOpen "script".data
      ((dropElement "script".data ts).map (cleanTok f)) :=
    noOpen_map_clean f _ _ (fun t ht => noOpen_dropElemAux _ _ _ t ht)
  have hbClean : AllClean f ((dropElement "script".data ts).map (cleanTok f)) :=
    allClean_map_clean f _
  have hUsNoScript : NoOpen "script".data (transform f ts) := by
    show NoOpen _ (mergeTexts (if f then
      baselineToks ++ dropElement "style".data
        ((dropElement "script".data ts).map (cleanTok f))
      else (dropElement "script".data ts).map (cleanTok f)))
    apply noOpen_mergeTexts
    cases f with
    | false => simpa using hbNoScript
    | true =>
      intro t ht
      simp only [if_true] at ht
      rcases List.mem_append.mp ht with h1 | h1
      · exact noOpen_script_baselineToks t h1
      · exact hbNoScript t (mem_dropElemAux _ _ _ _ h1)
  have hUsClean : AllClean f (transform f ts) := by
    show AllClean _ (mergeTexts (if f then
      baselineToks ++ dropElement "style".data
        ((dropElement "script".data ts).map (cleanTok f))
      else (dropElement "script".data ts).map (cleanTok f)))
    apply allClean_mergeTexts
    cases f with
    | false => simpa using hbClean
    | true =>
      intro x hx
      simp only [if_true] at hx
      rcases List.mem_append.mp hx with h1 | h1
      · exact allClean_baselineToks true x h1
      · exact hbClean x (mem_dropElemAux _ _ _ _ h1)
  refine transform_fix f _ (canon_transform f ts h) hUsNoScript hUsClean ?_
  intro hf
  subst hf
  refine ⟨mergeTexts (dropElement "style".data
    ((dropElement "script".data ts).map (cleanTok true))), ?_, ?_⟩
  · exact noOpen_mergeTexts _ _ (fun t ht => noOpen_dropElemAux _ _ _ t ht)
  · show mergeTexts (if true then
      baselineToks ++ dropElement "style".data
        ((dropElement "script".data ts).map (cleanTok true))
      else (dropElement "script".data ts).map (cleanTok true)) = _
    simp only [if_true]
    exact mergeTexts_baseline_append _

end MailViewer

namespace MailViewer

/-- Claim C9: the HTML sanitizer is idempotent: for every HTML string x and
every force_css flag f, sanitizing twice equals sanitizing once. -/
theorem sanitize_idempotent (x : String) (f : Bool) :
    sanitize (sanitize x f) f = sanitize x f := by
  have htags : ∀ t, Tok.tag t ∈ lexChars x.data → '>' ∉ t := by
    intro t ht
    exact lexAux_tags_good x.data false [] (by simp) t ht
  show String.mk (serializeToks (transform f (lexChars (sanitize x f).data))) =
    sanitize x f
  have hdata : (sanitize x f).data = serializeToks (transform f (lexChars x.data)) := rfl
  rw [hdata, lex_serialize_roundtrip _ (canon_transform f _ htags),
    transform_idem f _ htags]
  rfl

end MailViewer

namespace MailViewer

/-- Claim C1: for every path p that does not exist in the environment,
open_message returns an error whose message contains the literal path p (it is
exactly "File not found : " followed by p), leaves the façade state entirely
unchanged, and raises no title-changed notification. -/
theorem open_message_not_found (env : Env) (s : MailService) (p : String)
    (h : env.fsExists p = false) :
    (MailService.open_message env s p).result =
      Except.error ("File not found : " ++ p) ∧
    (MailService.open_message env s p).state = s ∧
    (MailService.open_message env s p).events = [] := by
  simp [MailService.open_message, h]

/-- Witness for C1 at the concrete path "missing.eml" in an environment where
no file exists. -/
theorem open_message_not_found_witness :
    emptyEnv.fsExists "missing.eml" = false ∧
    ((MailService.open_message emptyEnv MailService.new "missing.eml").result =
       Except.error ("File not found : " ++ "missing.eml") ∧
     (MailService.open_message emptyEnv MailService.new "missing.eml").state =
       MailService.new ∧
     (MailService.open_message emptyEnv MailService.new "missing.eml").events = []) :=
  ⟨rfl, open_message_not_found emptyEnv MailService.new "missing.eml" rfl⟩

/-- Counterexample to C2 as stated: in an environment where the path exists
but parsing fails, open_message returns an error yet get_fullpath has changed
(from none to some "x.eml"), because the Rust code stores the full path before
parsing. -/
theorem open_message_error_counterexample :
    (∃ e, (MailService.open_message badParseEnv MailService.new "x.eml").result =
      Except.error e) ∧
    (MailService.open_message badParseEnv MailService.new "x.eml").state.get_fullpath ≠
      MailService.new.get_fullpath := by
  constructor
  · exact ⟨"ParseError : malformed message", by decide⟩
  · decide

/-- Claim C2 amended: for every call to open_message that returns an error,
the held message is unchanged (parser field, hence all parser-derived
accessors), the preference and callback registration are unchanged, and no
notification fires; the stored full path is unchanged when the path does not
exist, but is replaced by the new path when the path exists and parsing
fails. -/
theorem open_message_error_frame (env : Env) (s : MailService) (p : String)
    (e : String) (h : (MailService.open_message env s p).result = Except.error e) :
    (MailService.open_message env s p).state.parser = s.parser ∧
    (MailService.open_message env s p).state.show_file_name = s.show_file_name ∧
    (MailService.open_message env s p).state.signal_registered = s.signal_registered ∧
    (MailService.open_message env s p).events = [] ∧
    (MailService.open_message env s p).state.get_fullpath =
      (if env.fsExists p then some p else s.get_fullpath) ∧
    (MailService.open_message env s p).state.«from» = s.«from» ∧
    (MailService.open_message env s p).state.«to» = s.«to» ∧
    (MailService.open_message env s p).state.subject = s.subject ∧
    (MailService.open_message env s p).state.date = s.date ∧
    (MailService.open_message env s p).state.body_text = s.body_text ∧
    (MailService.open_message env s p).state.body_html = s.body_html ∧
    (MailService.open_message env s p).state.attachments = s.attachments := by
  by_cases hf : env.fsExists p = false
  · simp [MailService.open_message, hf, MailService.get_fullpath]
  · have hf2 : env.fsExists p = true := by
      revert hf; cases env.fsExists p <;> simp
    cases hp : env.parse p with
    | error e2 =>
      simp [MailService.open_message, hf2, hp, MailService.get_fullpath,
        MailService.«from», MailService.«to», MailService.subject, MailService.date,
        MailService.body_text, MailService.body_html, MailService.attachments]
    | ok parser =>
      exfalso
      simp [MailService.open_message, hf2, hp] at h

/-- Witness for the amended C2 at the concrete failing-parse call. -/
theorem open_message_error_frame_witness :
    ((MailService.open_message badParseEnv MailService.new "x.eml").result =
      Except.error "ParseError : malformed message") ∧
    ((MailService.open_message badParseEnv MailService.new "x.eml").state.parser =
      MailService.new.parser ∧
     (MailService.open_message badParseEnv MailService.new "x.eml").events = []) := by
  have h := open_message_error_frame badParseEnv MailService.new "x.eml"
    "ParseError : malformed message" (by decide)
  exact ⟨by decide, h.1, h.2.2.2.1⟩

/-- Claim C3: opening the well-formed sample message succeeds and afterwards
the from/to/subject/date accessors return exactly the four decoded header
strings pinned by the repository test open_mail_success. -/
theorem open_sample_headers :
    (MailService.open_message sampleEnv MailService.new "sample.eml").result =
      Except.ok () ∧
    (MailService.open_message sampleEnv MailService.new "sample.eml").state.«from» =
      "John Doe <john@moon.space>" ∧
    (MailService.open_message sampleEnv MailService.new "sample.eml").state.«to» =
      "Lucas <lucas@mercure.space>" ∧
    (MailService.open_message sampleEnv MailService.new "sample.eml").state.subject =
      "Lorem ipsum" ∧
    (MailService.open_message sampleEnv MailService.new "sample.eml").state.date =
      "2024-10-23 12:27:21" := by decide

/-- Claim C4: with a title-changed observer registered, every successful
open_message call invokes the observer exactly once, synchronously before
returning, with the title derived from the newly opened file. -/
theorem open_message_notifies_once (env : Env) (s : MailService) (p : String)
    (hreg : s.signal_registered = true) (u : Unit)
    (hok : (MailService.open_message env s p).result = Except.ok u) :
    (MailService.open_message env s p).events =
      [(MailService.open_message env s p).state.get_title p] := by
  by_cases hf : env.fsExists p = false
  · simp [MailService.open_message, hf] at hok
  · have hf2 : env.fsExists p = true := by
      revert hf; cases env.fsExists p <;> simp
    cases hp : env.parse p with
    | error e => simp [MailService.open_message, hf2, hp] at hok
    | ok parser =>
      simp [MailService.open_message, hf2, hp, MailService.update_title, hreg]

/-- Witness for C4 at the concrete successful open of sample.eml with a
registered observer. -/
theorem open_message_notifies_once_witness :
    (MailService.new.connect_title_changed.signal_registered = true ∧
     (MailService.open_message sampleEnv MailService.new.connect_title_changed
       "sample.eml").result = Except.ok ()) ∧
    (MailService.open_message sampleEnv MailService.new.connect_title_changed
      "sample.eml").events =
      [(MailService.open_message sampleEnv MailService.new.connect_title_changed
        "sample.eml").state.get_title "sample.eml"] :=
  ⟨⟨rfl, by decide⟩,
   open_message_notifies_once sampleEnv MailService.new.connect_title_changed
     "sample.eml" rfl () (by decide)⟩

/-- Counterexample to C5 as stated: with an observer registered on a fresh
service where no message has been opened, set_show_file_name invokes the
observer zero times, not once, because update_title requires a stored full
path before calling the callback. -/
theorem set_show_file_name_counterexample :
    MailService.new.connect_title_changed.signal_registered = true ∧
    MailService.new.connect_title_changed.parser = none ∧
    MailService.new.connect_title_changed.full_path = none ∧
    (MailService.new.connect_title_changed.set_show_file_name false).2.length ≠ 1 := by
  decide

/-- Claim C5 amended: for every set_show_file_name call with a registered
observer, the observer is invoked exactly once when a full path is stored
(with the title derived from the updated state), and not at all when no path
is stored (no open has occurred). -/
theorem set_show_file_name_notification (s : MailService) (b : Bool)
    (hreg : s.signal_registered = true) :
    (s.set_show_file_name b).2 =
      match s.full_path with
      | some p => [MailService.get_title { s with show_file_name := b } p]
      | none => [] := by
  cases hp : s.full_path <;>
    simp [MailService.set_show_file_name, MailService.update_title, hreg, hp]

/-- Witness for the amended C5 on a registered state holding a path, where
disabling the preference emits exactly one notification with the fallback
title. -/
theorem set_show_file_name_notification_witness :
    (MailService.mk none (some "sample.eml") true true).signal_registered = true ∧
    ((MailService.mk none (some "sample.eml") true true).set_show_file_name false).2 =
      [appTitle] := by
  have h := set_show_file_name_notification
    (MailService.mk none (some "sample.eml") true true) false rfl
  exact ⟨rfl, by rw [h]; decide⟩

/-- Claim C6: if the show-file-name preference is enabled and the open path
has a base name then the derived title equals that base name; if the
preference is disabled the derived title equals the fixed application
name/version string. -/
theorem get_title_rule (s : MailService) (p : String) :
    (s.show_file_name = true → ∀ b, file_name p = some b → s.get_title p = b) ∧
    (s.show_file_name = false → s.get_title p = appTitle) := by
  constructor
  · intro hs b hb
    simp [MailService.get_title, hs, hb]
  · intro hs
    simp [MailService.get_title, hs]

/-- Witness for C6 at path "sample.eml" with the preference enabled and
disabled. -/
theorem get_title_rule_witness :
    (MailService.new.show_file_name = true ∧
     file_name "sample.eml" = some "sample.eml" ∧
     MailService.new.get_title "sample.eml" = "sample.eml") ∧
    ((MailService.new.set_show_file_name false).1.show_file_name = false ∧
     (MailService.new.set_show_file_name false).1.get_title "sample.eml" = appTitle) :=
  ⟨⟨rfl, by decide,
    (get_title_rule MailService.new "sample.eml").1 rfl "sample.eml" (by decide)⟩,
   ⟨rfl, (get_title_rule (MailService.new.set_show_file_name false).1 "sample.eml").2 rfl⟩⟩

/-- Claim C7: in every state holding no parsed message, the accessors return
the empty/absent defaults: empty strings for from/to/subject/date, none for
the bodies, and the empty attachment list. -/
theorem accessors_default (s : MailService) (h : s.parser = none) :
    s.«from» = "" ∧ s.«to» = "" ∧ s.subject = "" ∧ s.date = "" ∧
    s.body_text = none ∧ s.body_html = none ∧ s.attachments = [] := by
  simp [MailService.«from», MailService.«to», MailService.subject, MailService.date,
    MailService.body_text, MailService.body_html, MailService.attachments, h]

/-- Witness for C7 at the freshly constructed service. -/
theorem accessors_default_witness :
    MailService.new.parser = none ∧
    (MailService.new.«from» = "" ∧ MailService.new.«to» = "" ∧
     MailService.new.subject = "" ∧ MailService.new.date = "" ∧
     MailService.new.body_text = none ∧ MailService.new.body_html = none ∧
     MailService.new.attachments = []) :=
  ⟨rfl, accessors_default MailService.new rfl⟩

/-- Claim C8: set_show_file_name changes only the show-file-name preference:
the resulting state is the old state with that one field replaced, so the held
message, every accessor, and the stored full path are unchanged, with no
re-parse. -/
theorem set_show_file_name_frame (s : MailService) (b : Bool) :
    (s.set_show_file_name b).1 = { s with show_file_name := b } ∧
    (s.set_show_file_name b).1.parser = s.parser ∧
    (s.set_show_file_name b).1.full_path = s.full_path ∧
    (s.set_show_file_name b).1.get_fullpath = s.get_fullpath ∧
    (s.set_show_file_name b).1.show_file_name = b ∧
    (s.set_show_file_name b).1.«from» = s.«from» ∧
    (s.set_show_file_name b).1.«to» = s.«to» ∧
    (s.set_show_file_name b).1.subject = s.subject ∧
    (s.set_show_file_name b).1.date = s.date ∧
    (s.set_show_file_name b).1.body_text = s.body_text ∧
    (s.set_show_file_name b).1.body_html = s.body_html ∧
    (s.set_show_file_name b).1.attachments = s.attachments :=
  ⟨rfl, rfl, rfl, rfl, rfl, rfl, rfl, rfl, rfl, rfl, rfl, rfl⟩

/-- Claim C10: a newly constructed MailService holds no message and no path,
all accessors return their empty/absent defaults, no callback is registered,
and the show-file-name preference starts enabled, so a first successful open
with no intervening setter call derives the title from the file's base
name. -/
theorem new_initial_state :
    MailService.new.parser = none ∧
    MailService.new.full_path = none ∧
    MailService.new.get_fullpath = none ∧
    MailService.new.show_file_name = true ∧
    MailService.new.signal_registered = false ∧
    MailService.new.«from» = "" ∧ MailService.new.«to» = "" ∧
    MailService.new.subject = "" ∧ MailService.new.date = "" ∧
    MailService.new.body_text = none ∧ MailService.new.body_html = none ∧
    MailService.new.attachments = [] ∧
    (∀ env p u,
      (MailService.open_message env MailService.new p).result = Except.ok u →
      (MailService.open_message env MailService.new p).state.show_file_name = true ∧
      ∀ b, file_name p = some b →
        (MailService.open_message env MailService.new p).state.get_title p = b) := by
  refine ⟨rfl, rfl, rfl, rfl, rfl, rfl, rfl, rfl, rfl, rfl, rfl, rfl, ?_⟩
  intro env p u hok
  by_cases hf : env.fsExists p = false
  · simp [MailService.open_message, hf] at hok
  · have hf2 : env.fsExists p = true := by
      revert hf; cases env.fsExists p <;> simp
    cases hp : env.parse p with
    | error e => simp [MailService.open_message, hf2, hp] at hok
    | ok parser =>
      constructor
      · simp [MailService.open_message, hf2, hp, MailService.new]
      · intro b hb
        simp [MailService.open_message, hf2, hp, MailService.get_title,
          MailService.new, hb]

/-- Witness for C10 at the concrete successful open of sample.eml from the
fresh state. -/
theorem new_initial_state_witness :
    ((MailService.open_message sampleEnv MailService.new "sample.eml").result =
       Except.ok () ∧
     file_name "sample.eml" = some "sample.eml") ∧
    ((MailService.open_message sampleEnv MailService.new "sample.eml").state.show_file_name =
       true ∧
     (MailService.open_message sampleEnv MailService.new "sample.eml").state.get_title
       "sample.eml" = "sample.eml") := by
  have h := new_initial_state.2.2.2.2.2.2.2.2.2.2.2.2 sampleEnv "sample.eml" ()
    (by decide)
  exact ⟨⟨by decide, by decide⟩, h.1, h.2 "sample.eml" (by decide)⟩

end MailViewer
